import Mathlib

/-!
Verification of the cmdui command-shell core (src/cmdui.rs): a shallow
embedding of the quote-aware tokenizer, the template-driven completion
engine, the command-name dispatcher, the pager layout and the argument
helpers, together with theorems about their behaviour.

Strings are modelled as lists of characters, so Rust byte positions become
character indices and Rust string slicing becomes drop/take on the list.
-/

namespace Cmdui

/-- A string, modelled as its list of characters. -/
abbrev Str := List Char

/-- One token cut from a command line (struct CommandPart, cmdui.rs:260-264).
The field is_quoted records whether the content contains a space; the spec
calls this flag contains_space. -/
structure CommandPart where
  slice : Str
  is_quoted : Bool
  is_error : Bool
deriving DecidableEq

/-- CommandPart::new (cmdui.rs:266-274): the flag is computed from the
content by searching for a space. -/
def CommandPart.new (s : Str) : CommandPart :=
  { slice := s, is_quoted := s.contains ' ', is_error := false }

/-- CommandPart::error (cmdui.rs:276-282). -/
def CommandPart.error (s : Str) : CommandPart :=
  { slice := s, is_quoted := false, is_error := true }

/-- The empty token emitted at end of line. -/
def emptyPart : CommandPart := CommandPart.new []

/-- CommandPart::to_string (cmdui.rs:292-302): error tokens render with a
Bad_command marker, tokens with an embedded space render single-quoted. -/
def CommandPart.to_string (p : CommandPart) : Str :=
  if p.is_error then "Bad_command: ".toList ++ p.slice
  else if p.is_quoted then '\'' :: (p.slice ++ ['\''])
  else p.slice

/-- Index of the first occurrence of a character in a string
(Rust str::find with a char pattern). -/
def firstIdx (c : Char) : Str → Option Nat
  | [] => none
  | a :: as => if a == c then some 0 else (firstIdx c as).map (· + 1)

/-- CommandLineIterator::find_from (cmdui.rs:332-340): first occurrence of c
at an index greater than or equal to start. -/
def findFrom (line : Str) (start : Nat) (c : Char) : Option Nat :=
  (firstIdx c (line.drop start)).map (start + ·)

/-- CommandLineIterator::find_from_to (cmdui.rs:342-350): first occurrence
of c in the half-open index range from start to stop. -/
def findFromTo (line : Str) (start stop : Nat) (c : Char) : Option Nat :=
  (firstIdx c ((line.drop start).take (stop - start))).map (start + ·)

/-- The slice line[start..stop]. -/
def slice (line : Str) (start stop : Nat) : Str :=
  (line.drop start).take (stop - start)

/-- The slice line[start..]. -/
def sliceFrom (line : Str) (start : Nat) : Str := line.drop start

/-- CommandLineIterator::char_is (cmdui.rs:356-358): whether the character
at the given position is c. -/
def charIs (line : Str) (pos : Nat) (c : Char) : Bool :=
  match line.drop pos with
  | [] => false
  | a :: _ => a == c

/-- One step of the tokenizer (Iterator::next for CommandLineIterator,
cmdui.rs:364-433).  Given the line and the current scan position it returns
the next token and the new position, or none when iteration is finished. -/
def next (line : Str) (pos : Nat) : Option (CommandPart × Nat) :=
  if pos > line.length then none
  else if pos = line.length then
    -- cmdui.rs:373-376: exactly at end of line, emit one empty final part
    some (CommandPart.new [], pos + 1)
  else if charIs line pos '\'' then
    -- cmdui.rs:378-407: quoted part
    match findFrom line (pos + 1) '\'' with
    | some nextpos =>
      if nextpos + 1 ≠ line.length then
        if charIs line (nextpos + 1) ' ' then
          some (CommandPart.new (slice line (pos + 1) nextpos), nextpos + 2)
        else
          -- no space after the closing quote: error token, resume after it
          some (CommandPart.error (slice line pos nextpos), nextpos + 1)
      else
        some (CommandPart.new (slice line (pos + 1) nextpos), nextpos + 2)
    | none =>
      -- no second quote: the rest of the line is one part
      some (CommandPart.new (sliceFrom line (pos + 1)), line.length + 1)
  else
    -- cmdui.rs:408-432: unquoted part
    match findFrom line pos ' ' with
    | some nextpos =>
      if (findFromTo line pos nextpos '\'').isSome then
        some (CommandPart.error (slice line pos nextpos), nextpos + 1)
      else
        some (CommandPart.new (slice line pos nextpos), nextpos + 1)
    | none =>
      if (findFrom line pos '\'').isSome then
        some (CommandPart.error (sliceFrom line pos), line.length + 1)
      else
        some (CommandPart.new (sliceFrom line pos), line.length + 1)

/-- Iterating the tokenizer, with explicit fuel so that the definition is
structurally recursive.  The position strictly increases at every step and
iteration stops once it exceeds the line length, so a fuel of
line length + 2 is always sufficient (proved below). -/
def partsFromF : Nat → Str → Nat → List CommandPart
  | 0, _, _ => []
  | fuel + 1, line, pos =>
    match next line pos with
    | none => []
    | some (t, p) => t :: partsFromF fuel line p

/-- All tokens of the line from a given scan position. -/
def tokenizeFrom (line : Str) (pos : Nat) : List CommandPart :=
  partsFromF (line.length + 2) line pos

/-- All tokens of a line (CommandLine::parts collected, cmdui.rs:255-257). -/
def tokenize (line : Str) : List CommandPart :=
  tokenizeFrom line 0

/-! ### Dispatcher (CmdUI::read_commands, cmdui.rs:632-679)

After tokenizing a line, read_commands greedily moves leading tokens out of
the argument list into a command identifier, keeping a shrinking list of
candidate templates that start with the identifier built so far. -/

/-- Rust str::starts_with on the character-list model. -/
def strStartsWith (s p : Str) : Bool := p.isPrefixOf s

/-- Rust str::ends_with on the character-list model. -/
def strEndsWith (s p : Str) : Bool := p.isSuffixOf s

/-- The loop of cmdui.rs:637-672: args is the remaining token list, cmdlist
the current candidate templates, cmd the identifier built so far.  Returns
the final identifier and the remaining arguments. -/
def dispatchGo : List Str → List Str → Str → Str × List Str
  | [], _, cmd => (cmd, [])
  | a :: rest, cmdlist, cmd =>
    if strStartsWith a ['<'] && strEndsWith a ['>'] then
      -- cmdui.rs:642-646: a replacement word is never part of the command
      (cmd, a :: rest)
    else if a.isEmpty then
      -- cmdui.rs:648-652: skip empty args
      dispatchGo rest cmdlist cmd
    else
      let p := if cmd.isEmpty then a else cmd ++ ' ' :: a
      let cl := cmdlist.filter (fun c => strStartsWith c p)
      if cl.length > 0 then dispatchGo rest cl p
      else (cmd, a :: rest)

/-- The identifier/argument split computed by read_commands from the typed
tokens and the registered template list. -/
def dispatch (args templates : List Str) : Str × List Str :=
  dispatchGo args templates []

/-! ### Argument helpers (impl dyn CmdApp, cmdui.rs:196-238) -/

/-- CmdApp::parse_int (cmdui.rs:197-204), with the string-to-integer parse
modelled as an optional value. -/
def parse_int (parsed : Option Nat) (intstr : Str) : Except Str Nat :=
  match parsed with
  | some length => Except.ok length
  | none => Except.error ("Expected integer, got '".toList ++ intstr ++ ['\''])

/-- CmdApp::parse_bool (cmdui.rs:206-218). -/
def parse_bool (boolstr : Str) : Except Str Bool :=
  if boolstr == "on".toList || boolstr == "true".toList || boolstr == "1".toList then
    Except.ok true
  else if boolstr == "off".toList || boolstr == "false".toList || boolstr == "0".toList then
    Except.ok false
  else
    Except.error ("Expected boolean, got '".toList ++ boolstr ++ ['\''])

/-- CmdApp::opt_part (cmdui.rs:220-227). -/
def opt_part (args : List Str) (pos : Nat) : Option Str :=
  if args.length > pos then args.get? pos else none

/-- CmdApp::expects_num_arguments (cmdui.rs:229-237): error when fewer than
n arguments are present, success otherwise. -/
def expects_num_arguments (args : List Str) (n : Nat) : Except Str Unit :=
  if args.length < n then
    Except.error ("Expected ".toList ++ (toString n).toList ++ " arguments".toList)
  else
    Except.ok ()

/-! ### Completion engine (CommandCompleter::complete, cmdui.rs:452-542)

The expansion provider (KeywordExpander::expand_keyword) is modelled as a
function from the template part and the rendered tokens typed so far to the
list of valid literal values. -/

/-- A completion candidate (rustyline Pair): display text and replacement. -/
structure Pair where
  display : Str
  replacement : Str
deriving DecidableEq

/-- Insertion into the candidate map keyed by display text, modelling
HashMap::insert at cmdui.rs:525-528: if the key is present its value is
replaced, otherwise the entry is added.  The code always inserts a pair
whose display equals the key, so the map is a list of pairs with pairwise
distinct displays. -/
def pairsInsert : List Pair → Pair → List Pair
  | [], v => [v]
  | e :: m, v => if e.display = v.display then v :: m else e :: pairsInsert m v

/-- The candidate order used by the final sort (cmdui.rs:539): ascending by
display text, i.e. lexicographic. -/
def strLe : Str → Str → Bool
  | [], _ => true
  | _ :: _, [] => false
  | a :: as, b :: bs =>
    if a.toNat < b.toNat then true
    else if b.toNat < a.toNat then false
    else strLe as bs

/-- The sort order on pairs: ascending by display text. -/
def pairLe (a b : Pair) : Prop := strLe a.display b.display = true

instance : DecidableRel pairLe := fun _ _ =>
  inferInstanceAs (Decidable (_ = true))

/-- The walk over the parts of one template (the loop at cmdui.rs:477-535).
lwords are the typed tokens, cmdVecLen the number of parts of the template,
the first explicit argument the remaining template parts at index i, pfx
the per-template prefix string and parts the rendered typed tokens
accumulated so far; m is the candidate map threaded through. -/
def walkParts (expand : CommandPart → List Str → List Str)
    (lwords : List CommandPart) (cmdVecLen : Nat) :
    List CommandPart → Nat → Str → List Str → List Pair → List Pair
  | [], _, _, _, m => m
  | cp :: cps, i, pfx, parts, m =>
    if i = lwords.length then
      -- cmdui.rs:478-480: every typed token already classified
      m
    else
      let lpart := lwords.getD i emptyPart
      let parts' := parts ++ [lpart.to_string]
      let keys := expand cp parts'
      if i = lwords.length - 1 then
        -- unfinished last token: emit a candidate for every key that the
        -- partial token is a prefix of (cmdui.rs:490-495, 514-530)
        let m' := keys.foldl (fun acc k =>
          if strStartsWith k lpart.slice then
            let disp := (CommandPart.new k).to_string
            pairsInsert acc
              { display := disp
                replacement := pfx ++ disp ++ (if i + 1 < cmdVecLen then [' '] else []) }
          else acc) m
        if keys.any (fun k => strStartsWith k lpart.slice) then
          walkParts expand lwords cmdVecLen cps (i + 1) pfx parts' m'
        else
          -- cmdui.rs:532-534: no matches, abandon this template
          m'
      else
        -- finished token: keywords need an exact match against some key,
        -- parts shaped <...> skip the check (cmdui.rs:496-511); with no
        -- keys at all the template is abandoned (got_matches stays false)
        if keys.any (fun k => strStartsWith cp.slice ['<'] || lpart.slice == k) then
          walkParts expand lwords cmdVecLen cps (i + 1)
            (pfx ++ lpart.to_string ++ [' ']) parts' m
        else m

/-- CommandCompleter::complete after tokenizing the line
(cmdui.rs:455-541): abort on error tokens, walk every template threading
the candidate map, then sort the collected candidates by display text. -/
def completeParts (expand : CommandPart → List Str → List Str)
    (commands : List Str) (lwords : List CommandPart) : List Pair :=
  if lwords.any (·.is_error) then []
  else
    let m := commands.foldl (fun m cmd =>
      let cmdVec := tokenize cmd
      walkParts expand lwords cmdVec.length cmdVec 0 [] [] m) []
    m.insertionSort pairLe

/-- CommandCompleter::complete on a raw line (cmdui.rs:452-458). -/
def complete (expand : CommandPart → List Str → List Str)
    (commands : List Str) (line : Str) : List Pair :=
  completeParts expand commands (tokenize line)

/-- The sequence of candidate emissions of one template walk, in emission
order, without the deduplication done by the map; used to state which
candidate survives when several share a display text. -/
def walkEmits (expand : CommandPart → List Str → List Str)
    (lwords : List CommandPart) (cmdVecLen : Nat) :
    List CommandPart → Nat → Str → List Str → List Pair
  | [], _, _, _ => []
  | cp :: cps, i, pfx, parts =>
    if i = lwords.length then []
    else
      let lpart := lwords.getD i emptyPart
      let parts' := parts ++ [lpart.to_string]
      let keys := expand cp parts'
      if i = lwords.length - 1 then
        let emitted := keys.filterMap (fun k =>
          if strStartsWith k lpart.slice then
            let disp := (CommandPart.new k).to_string
            some { display := disp
                   replacement := pfx ++ disp ++ (if i + 1 < cmdVecLen then [' '] else []) }
          else none)
        emitted ++
          (if keys.any (fun k => strStartsWith k lpart.slice) then
            walkEmits expand lwords cmdVecLen cps (i + 1) pfx parts'
          else [])
      else
        if keys.any (fun k => strStartsWith cp.slice ['<'] || lpart.slice == k) then
          walkEmits expand lwords cmdVecLen cps (i + 1)
            (pfx ++ lpart.to_string ++ [' ']) parts'
        else []

/-- All candidate emissions of a completion run, across all templates in
order. -/
def completeEmits (expand : CommandPart → List Str → List Str)
    (commands : List Str) (lwords : List CommandPart) : List Pair :=
  if lwords.any (·.is_error) then []
  else
    (commands.map (fun cmd =>
      let cmdVec := tokenize cmd
      walkEmits expand lwords cmdVec.length cmdVec 0 [] [])).flatten

/-! ### Pager layout (CmdApp::print_columns, cmdui.rs:91-127) -/

/-- Left-justified padding to a given width (the Rust format string at
cmdui.rs:117): pad with spaces up to the width, never truncate. -/
def padTo (w : Nat) (s : Str) : Str := s ++ List.replicate (w - s.length) ' '

/-- The printing pass of print_columns (cmdui.rs:104-123): the counter i
cycles through the columns; every item printed when the counter wraps to 0
ends its row and is followed by a newline, every other item is padded to
the column width; a trailing incomplete row is closed by a bare newline. -/
def printPassGo (cols cwidth : Nat) : List Str → Nat → Str
  | [], i => if i ≠ 0 then ['\n'] else []
  | l :: rest, i =>
    let i' := (i + 1) % cols
    if i' = 0 then l ++ '\n' :: printPassGo cols cwidth rest i'
    else padTo cwidth l ++ printPassGo cols cwidth rest i'

/-- One full printing pass of print_columns with the column count and
column width computed as at cmdui.rs:92-95.  The divisions are Rust-faithful
only when at least one column fits (cols > 0); the division-by-zero hazard
itself is modelled by layoutParams below. -/
def printColumnsOnePass (termW : Nat) (items : List Str) (maxLine : Nat) : Str :=
  let cols := termW / (maxLine + 2)
  let cwidth := termW / cols
  printPassGo cols cwidth items 0

/-- Nat division that fails on a zero divisor, as Rust usize division
panics (cmdui.rs:94-96 computes cols = term_w / (max_line + 2) and then
cwidth = term_w / cols, the latter a division by zero when cols = 0). -/
def checkedDiv (a b : Nat) : Option Nat :=
  if b = 0 then none else some (a / b)

/-- The (cols, cwidth) layout parameters of print_columns, with each
division guarded as in Rust. -/
def layoutParams (termW maxLine : Nat) : Option (Nat × Nat) :=
  (checkedDiv termW (maxLine + 2)).bind fun cols =>
    (checkedDiv termW cols).map fun cwidth => (cols, cwidth)

/-- Splitting a list into rows of k items (row-major placement), with
explicit fuel so the definition is structurally recursive; a fuel of the
list length is always sufficient when k > 0. -/
def chunksF : Nat → Nat → List Str → List (List Str)
  | 0, _, _ => []
  | _ + 1, _, [] => []
  | fuel + 1, k, x :: xs => (x :: xs).take k :: chunksF fuel k ((x :: xs).drop k)

/-- The rows of the pager layout: items placed row-major, k per row. -/
def chunks (k : Nat) (l : List Str) : List (List Str) := chunksF l.length k l

/-- Concatenation of items each padded to width w. -/
def padCat (w : Nat) (l : List Str) : Str := (l.map (padTo w)).flatten

/-! ### Auxiliary definitions used by the statements -/

/-- Joining token strings with single spaces (the spec-side join of the
round-trip property, and the identifier concatenation of the dispatcher,
which joins consumed tokens with single spaces, cmdui.rs:654-659). -/
def joinSpace : List Str → Str
  | [] => []
  | [x] => x
  | x :: y :: t => x ++ ' ' :: joinSpace (y :: t)

/-- Modelled from the spec: the literal portion of a Template, i.e. its
leading parts that are not placeholder-shaped, as token strings.  Used
only to state the claimed dispatcher invariant. -/
def literalPortion (t : Str) : List Str :=
  ((tokenize t).map CommandPart.slice).takeWhile
    (fun w => !(strStartsWith w ['<'] && strEndsWith w ['>']))

/-- Modelled from the spec: the pager layout as the claim describes it,
with every non-final item of a row left-justified to exactly
max_item_width + 2 and the last item of every row unpadded. -/
def claimColumnsLayout (termW : Nat) (items : List Str) (maxLine : Nat) : Str :=
  let slot := maxLine + 2
  let cols := termW / slot
  ((chunks cols items).map
    (fun row => padCat slot row.dropLast ++ row.getLastD [] ++ ['\n'])).flatten

/-- Lookup in the candidate map by display text. -/
def lookupD : List Pair → Str → Option Pair
  | [], _ => none
  | e :: m, d => if e.display = d then some e else lookupD m d

/-- First-defined choice of two optional pairs. -/
def optOr : Option Pair → Option Pair → Option Pair
  | some v, _ => some v
  | none, b => b

/-! ### Tokenizer lemmas -/

theorem firstIdx_eq_none_iff {c : Char} {l : Str} : firstIdx c l = none ↔ c ∉ l := by
  induction l with
  | nil => simp [firstIdx]
  | cons a as ih =>
    by_cases h : a = c
    · simp [firstIdx, h]
    · simp [firstIdx, h, Ne.symm h, ih]

theorem firstIdx_append {c : Char} {x r : Str} (hx : c ∉ x) :
    firstIdx c (x ++ c :: r) = some x.length := by
  induction x with
  | nil => simp [firstIdx]
  | cons a as ih =>
    have ha : ¬ (a = c) := fun h => hx (by simp [h])
    have ih' := ih (fun h => hx (List.mem_cons_of_mem _ h))
    simp [firstIdx, ha, ih']

theorem findFrom_ge {line : Str} {s : Nat} {c : Char} {j : Nat}
    (h : findFrom line s c = some j) : s ≤ j := by
  unfold findFrom at h
  cases hf : firstIdx c (line.drop s) with
  | none => rw [hf] at h; cases h
  | some q => rw [hf] at h; simp at h; omega

theorem next_lt {line : Str} {pos : Nat} {t : CommandPart} {p : Nat}
    (h : next line pos = some (t, p)) : pos < p ∧ pos ≤ line.length := by
  by_cases h1 : pos > line.length
  · simp [next, h1] at h
  have hle : pos ≤ line.length := by omega
  by_cases h2 : pos = line.length
  · simp [next, h1, h2] at h
    omega
  by_cases h3 : charIs line pos '\''
  · cases hf : findFrom line (pos + 1) '\'' with
    | none =>
      simp [next, h1, h2, h3, hf] at h
      omega
    | some q =>
      have hq : pos + 1 ≤ q := findFrom_ge hf
      by_cases h4 : q + 1 = line.length
      · simp [next, h1, h2, h3, hf, h4] at h
        omega
      · by_cases h5 : charIs line (q + 1) ' '
        · simp [next, h1, h2, h3, hf, h4, h5] at h
          omega
        · simp [next, h1, h2, h3, hf, h4, h5] at h
          omega
  · cases hf : findFrom line pos ' ' with
    | some q =>
      have hq : pos ≤ q := findFrom_ge hf
      by_cases h4 : (findFromTo line pos q '\'').isSome
      · simp [next, h1, h2, h3, hf, h4] at h
        omega
      · simp [next, h1, h2, h3, hf, h4] at h
        omega
    | none =>
      by_cases h4 : (findFrom line pos '\'').isSome
      · simp [next, h1, h2, h3, hf, h4] at h
        omega
      · simp [next, h1, h2, h3, hf, h4] at h
        omega

theorem partsFromF_congr (f1 : Nat) : ∀ (f2 : Nat) (line : Str) (pos : Nat),
    line.length + 2 - pos ≤ f1 → line.length + 2 - pos ≤ f2 →
    partsFromF f1 line pos = partsFromF f2 line pos := by
  induction f1 with
  | zero =>
    intro f2 line pos h1 _
    have hpos : line.length < pos := by omega
    cases f2 with
    | zero => rfl
    | succ g => simp [partsFromF, next, hpos]
  | succ f ih =>
    intro f2 line pos h1 h2
    by_cases hpos : pos > line.length
    · cases f2 with
      | zero => simp [partsFromF, next, hpos]
      | succ g => simp [partsFromF, next, hpos]
    · cases f2 with
      | zero => omega
      | succ g =>
        simp only [partsFromF]
        cases hn : next line pos with
        | none => rfl
        | some tp =>
          obtain ⟨t, p⟩ := tp
          have hlt := next_lt hn
          dsimp only
          rw [ih g line p (by omega) (by omega)]

theorem partsFromF_succ (fuel : Nat) (line : Str) (pos : Nat) :
    partsFromF (fuel + 1) line pos =
      match next line pos with
      | none => []
      | some (t, p) => t :: partsFromF fuel line p := rfl

theorem tokenizeFrom_unfold (line : Str) (pos : Nat) :
    tokenizeFrom line pos =
      match next line pos with
      | none => []
      | some (t, p) => t :: tokenizeFrom line p := by
  have h1 : tokenizeFrom line pos = partsFromF (line.length + 1 + 1) line pos := rfl
  rw [h1, partsFromF_succ]
  cases hn : next line pos with
  | none => rfl
  | some tp =>
    obtain ⟨t, p⟩ := tp
    have hlt := next_lt hn
    dsimp only
    exact congrArg (t :: ·)
      (partsFromF_congr (line.length + 1) (line.length + 2) line p (by omega) (by omega))

theorem drop_add (line : Str) (k j : Nat) : line.drop (k + j) = (line.drop k).drop j :=
  (List.drop_drop j k line).symm

theorem charIs_shift (line : Str) (k j : Nat) (c : Char) :
    charIs line (k + j) c = charIs (line.drop k) j c := by
  unfold charIs
  rw [drop_add]

theorem findFrom_shift (line : Str) (k j : Nat) (c : Char) :
    findFrom line (k + j) c = (findFrom (line.drop k) j c).map (fun q => k + q) := by
  unfold findFrom
  rw [drop_add]
  cases firstIdx c ((line.drop k).drop j) with
  | none => rfl
  | some q => simp [Nat.add_assoc]

theorem findFromTo_shift (line : Str) (k a b : Nat) (c : Char) :
    findFromTo line (k + a) (k + b) c = (findFromTo (line.drop k) a b c).map (fun q => k + q) := by
  unfold findFromTo
  rw [drop_add, show k + b - (k + a) = b - a by omega]
  cases firstIdx c (((line.drop k).drop a).take (b - a)) with
  | none => rfl
  | some q => simp [Nat.add_assoc]

theorem slice_shift (line : Str) (k a b : Nat) :
    slice line (k + a) (k + b) = slice (line.drop k) a b := by
  unfold slice
  rw [drop_add, show k + b - (k + a) = b - a by omega]

theorem sliceFrom_shift (line : Str) (k a : Nat) :
    sliceFrom line (k + a) = sliceFrom (line.drop k) a := by
  unfold sliceFrom
  rw [drop_add]

/-- A tokenizer step at position k + j of a line only looks at the part of
the line from position k on: it equals the step at position j of the
dropped line, with the new position shifted back by k. -/
theorem next_shift (line : Str) (k : Nat) (hk : k ≤ line.length) (j : Nat) :
    next line (k + j) = (next (line.drop k) j).map (fun tp => (tp.1, k + tp.2)) := by
  have hlen : (line.drop k).length = line.length - k := List.length_drop k line
  by_cases h1 : j > (line.drop k).length
  · have h1' : k + j > line.length := by omega
    have hR : next (line.drop k) j = none := by simp only [next, if_pos h1]
    have hL : next line (k + j) = none := by simp only [next, if_pos h1']
    rw [hL, hR]
    rfl
  by_cases h2 : j = (line.drop k).length
  · have h1' : ¬ (k + j > line.length) := by omega
    have h2' : k + j = line.length := by omega
    simp only [next, if_neg h1', if_pos h2', if_neg h1, if_pos h2, Option.map_some']
    simp [Nat.add_assoc]
  · have h1' : ¬ (k + j > line.length) := by omega
    have h2' : ¬ (k + j = line.length) := by omega
    simp only [next, if_neg h1', if_neg h2', if_neg h1, if_neg h2]
    rw [charIs_shift line k j '\'']
    by_cases hq : charIs (line.drop k) j '\''
    · rw [if_pos hq, if_pos hq]
      rw [show k + j + 1 = k + (j + 1) by omega, findFrom_shift]
      cases hf : findFrom (line.drop k) (j + 1) '\'' with
      | none =>
        simp only [Option.map_none', sliceFrom_shift]
        simp [Option.map]
        omega
      | some q =>
        simp only [Option.map_some']
        by_cases hc1 : q + 1 = (line.drop k).length
        · rw [if_neg (show ¬ (k + q + 1 ≠ line.length) by omega),
            if_neg (show ¬ (q + 1 ≠ (line.drop k).length) by omega)]
          rw [show k + (j + 1) = k + (j + 1) from rfl]
          rw [slice_shift line k (j + 1) q]
          simp [Option.map]
          omega
        · rw [if_pos (show k + q + 1 ≠ line.length by omega),
            if_pos (show q + 1 ≠ (line.drop k).length from hc1)]
          rw [show k + q + 1 = k + (q + 1) by omega, charIs_shift line k (q + 1) ' ']
          by_cases hc2 : charIs (line.drop k) (q + 1) ' '
          · rw [if_pos hc2, if_pos hc2]
            rw [slice_shift line k (j + 1) q]
            simp [Option.map]
            omega
          · rw [if_neg hc2, if_neg hc2]
            rw [slice_shift line k j q]
            simp [Option.map]
    · rw [if_neg hq, if_neg hq]
      rw [findFrom_shift line k j ' ']
      cases hf : findFrom (line.drop k) j ' ' with
      | none =>
        simp only [Option.map_none']
        rw [findFrom_shift line k j '\'']
        cases hg : findFrom (line.drop k) j '\'' with
        | none =>
          simp only [Option.map_none', sliceFrom_shift]
          simp [Option.map]
          omega
        | some q =>
          simp only [Option.map_some', Option.isSome_some, sliceFrom_shift]
          simp [Option.map]
          omega
      | some q =>
        simp only [Option.map_some']
        rw [findFromTo_shift line k j q '\'']
        cases hg : findFromTo (line.drop k) j q '\'' with
        | none =>
          simp only [Option.map_none', Option.isSome_none]
          rw [if_neg (by simp), if_neg (by simp)]
          rw [slice_shift line k j q]
          simp [Option.map]
          omega
        | some w =>
          simp only [Option.map_some']
          rw [if_pos (by simp), if_pos (by simp)]
          rw [slice_shift line k j q]
          simp [Option.map]
          omega

/-- Iterating the tokenizer from position k + j is iterating it over the
dropped line from position j. -/
theorem partsFromF_shift (f : Nat) : ∀ (line : Str) (k : Nat), k ≤ line.length →
    ∀ j, partsFromF f line (k + j) = partsFromF f (line.drop k) j := by
  induction f with
  | zero => intro line k _ j; rfl
  | succ f ih =>
    intro line k hk j
    simp only [partsFromF_succ]
    rw [next_shift line k hk j]
    cases hn : next (line.drop k) j with
    | none => rfl
    | some tp =>
      obtain ⟨t, p⟩ := tp
      simp only [Option.map_some']
      rw [ih line k hk p]

/-- Resuming tokenization at position k is tokenizing the line with its
first k characters dropped. -/
theorem tokenizeFrom_shift (line : Str) (k : Nat) (hk : k ≤ line.length) :
    tokenizeFrom line k = tokenize (line.drop k) := by
  have h0 : tokenizeFrom line k = partsFromF (line.length + 2) line (k + 0) := by
    rw [Nat.add_zero]
    rfl
  rw [h0, partsFromF_shift (line.length + 2) line k hk 0]
  unfold tokenize tokenizeFrom
  have hL : (line.drop k).length = line.length - k := List.length_drop k line
  exact partsFromF_congr _ _ _ _ (by omega) (by omega)

theorem charIs_true_lt {line : Str} {p : Nat} {c : Char}
    (h : charIs line p c = true) : p < line.length := by
  unfold charIs at h
  cases hd : line.drop p with
  | nil => rw [hd] at h; cases h
  | cons a as =>
    by_contra hh
    have hnil : line.drop p = [] := List.drop_eq_nil_of_le (by omega)
    rw [hnil] at hd
    cases hd

theorem next_space_cons (r : Str) : next (' ' :: r) 0 = some (CommandPart.new [], 1) := by
  have h3 : charIs (' ' :: r) 0 '\'' = false := rfl
  have h4 : findFrom (' ' :: r) 0 ' ' = some 0 := rfl
  have h5 : findFromTo (' ' :: r) 0 0 '\'' = none := rfl
  simp [next, h3, h4, h5, slice]

theorem next_word_append (a : Char) (xs r : Str)
    (hsp : ' ' ∉ a :: xs) (hq : '\'' ∉ a :: xs) :
    next ((a :: xs) ++ ' ' :: r) 0
      = some (CommandPart.new (a :: xs), (a :: xs).length + 1) := by
  have hne : a ≠ '\'' := fun h => hq (by simp [h])
  have h3 : charIs ((a :: xs) ++ ' ' :: r) 0 '\'' = false := by
    unfold charIs
    rw [List.drop_zero, List.cons_append]
    simp [hne]
  have h4 : findFrom ((a :: xs) ++ ' ' :: r) 0 ' ' = some (a :: xs).length := by
    unfold findFrom
    rw [List.drop_zero, firstIdx_append hsp]
    simp
  have h5 : findFromTo ((a :: xs) ++ ' ' :: r) 0 (a :: xs).length '\'' = none := by
    unfold findFromTo
    rw [List.drop_zero, Nat.sub_zero, List.take_left, firstIdx_eq_none_iff.mpr hq]
    rfl
  have h6 : slice ((a :: xs) ++ ' ' :: r) 0 (a :: xs).length = a :: xs := by
    unfold slice
    rw [List.drop_zero, Nat.sub_zero, List.take_left]
  have hgt : ¬ ((0 : Nat) > ((a :: xs) ++ ' ' :: r).length) := by omega
  have hlen2 : (0 : Nat) ≠ ((a :: xs) ++ ' ' :: r).length := by simp
  simp only [next, if_neg hgt, if_neg hlen2, h3, h4, h5, h6]
  simp

theorem next_word_whole (a : Char) (xs : Str)
    (hsp : ' ' ∉ a :: xs) (hq : '\'' ∉ a :: xs) :
    next (a :: xs) 0 = some (CommandPart.new (a :: xs), (a :: xs).length + 1) := by
  have hne : a ≠ '\'' := fun h => hq (by simp [h])
  have h3 : charIs (a :: xs) 0 '\'' = false := by
    unfold charIs
    rw [List.drop_zero]
    simp [hne]
  have h4 : findFrom (a :: xs) 0 ' ' = none := by
    unfold findFrom
    rw [List.drop_zero, firstIdx_eq_none_iff.mpr hsp]
    rfl
  have h5 : findFrom (a :: xs) 0 '\'' = none := by
    unfold findFrom
    rw [List.drop_zero, firstIdx_eq_none_iff.mpr hq]
    rfl
  have hgt : ¬ ((0 : Nat) > (a :: xs).length) := by omega
  have hlen2 : (0 : Nat) ≠ (a :: xs).length := by simp
  simp only [next, if_neg hgt, if_neg hlen2, h3, h4, h5]
  simp [sliceFrom]

theorem tokenizeFrom_past (line : Str) (pos : Nat) (h : pos > line.length) :
    tokenizeFrom line pos = [] := by
  rw [tokenizeFrom_unfold]
  simp [next, h]

theorem next_flag {line : Str} {pos : Nat} {t : CommandPart} {p : Nat}
    (h : next line pos = some (t, p)) :
    t.is_quoted = (!t.is_error && t.slice.contains ' ') := by
  by_cases h1 : pos > line.length
  · simp [next, h1] at h
  by_cases h2 : pos = line.length
  · simp [next, h1, h2] at h
    obtain ⟨rfl, rfl⟩ := h
    simp [CommandPart.new]
  by_cases h3 : charIs line pos '\''
  · cases hf : findFrom line (pos + 1) '\'' with
    | none =>
      simp [next, h1, h2, h3, hf] at h
      obtain ⟨rfl, rfl⟩ := h
      simp [CommandPart.new]
    | some q =>
      by_cases h4 : q + 1 = line.length
      · simp [next, h1, h2, h3, hf, h4] at h
        obtain ⟨rfl, rfl⟩ := h
        simp [CommandPart.new]
      · by_cases h5 : charIs line (q + 1) ' '
        · simp [next, h1, h2, h3, hf, h4, h5] at h
          obtain ⟨rfl, rfl⟩ := h
          simp [CommandPart.new]
        · simp [next, h1, h2, h3, hf, h4, h5] at h
          obtain ⟨rfl, rfl⟩ := h
          simp [CommandPart.error]
  · cases hf : findFrom line pos ' ' with
    | some q =>
      by_cases h4 : (findFromTo line pos q '\'').isSome
      · simp [next, h1, h2, h3, hf, h4] at h
        obtain ⟨rfl, rfl⟩ := h
        simp [CommandPart.error]
      · simp [next, h1, h2, h3, hf, h4] at h
        obtain ⟨rfl, rfl⟩ := h
        simp [CommandPart.new]
    | none =>
      by_cases h4 : (findFrom line pos '\'').isSome
      · simp [next, h1, h2, h3, hf, h4] at h
        obtain ⟨rfl, rfl⟩ := h
        simp [CommandPart.error]
      · simp [next, h1, h2, h3, hf, h4] at h
        obtain ⟨rfl, rfl⟩ := h
        simp [CommandPart.new]

theorem partsFromF_flag (f : Nat) : ∀ (line : Str) (pos : Nat) (t : CommandPart),
    t ∈ partsFromF f line pos → t.is_quoted = (!t.is_error && t.slice.contains ' ') := by
  induction f with
  | zero =>
    intro line pos t h
    exact absurd h (List.not_mem_nil t)
  | succ f ih =>
    intro line pos t h
    rw [partsFromF_succ] at h
    cases hn : next line pos with
    | none =>
      rw [hn] at h
      exact absurd h (List.not_mem_nil t)
    | some tp =>
      obtain ⟨t0, p⟩ := tp
      rw [hn] at h
      rcases List.mem_cons.mp h with h | h
      · subst h
        exact next_flag hn
      · exact ih line p t h

/-! ### Tokenizer claims -/

/-- Claim C4, counterexample: tokenizing a non-empty string consisting only
of spaces does not yield exactly one empty Token — a single space yields
two empty Tokens (cmdui.rs:410-418 emits one empty token for the segment
before the space, and cmdui.rs:373-376 adds the final empty token). -/
theorem claim4_space_counterexample :
    tokenize [' '] = [CommandPart.new [], CommandPart.new []] ∧
    (tokenize [' ']).length ≠ 1 := by decide

/-- Claim C4, amended: tokenizing the empty string yields exactly one empty
Token, and tokenizing a string of n + 1 spaces yields exactly n + 2 empty
Tokens: one per space plus the final empty token. -/
theorem claim4_empty_and_spaces :
    tokenize [] = [CommandPart.new []] ∧
    ∀ n : Nat, tokenize (List.replicate (n + 1) ' ')
      = List.replicate (n + 2) (CommandPart.new []) := by
  constructor
  · decide
  · intro n
    induction n with
    | zero => decide
    | succ m ih =>
      have hrep : List.replicate (m + 2) ' ' = ' ' :: List.replicate (m + 1) ' ' := rfl
      have hstep : tokenize (List.replicate (m + 2) ' ')
          = CommandPart.new [] :: tokenize (List.replicate (m + 1) ' ') := by
        rw [hrep]
        rw [show tokenize (' ' :: List.replicate (m + 1) ' ')
            = tokenizeFrom (' ' :: List.replicate (m + 1) ' ') 0 from rfl]
        rw [tokenizeFrom_unfold, next_space_cons]
        dsimp only
        rw [tokenizeFrom_shift (' ' :: List.replicate (m + 1) ' ') 1 (by simp)]
        rfl
      rw [hstep, ih]
      rfl

/-- Claim C4, witness: the amended count theorem at one space. -/
theorem claim4_witness :
    tokenize (List.replicate 1 ' ') = List.replicate 2 (CommandPart.new []) :=
  claim4_empty_and_spaces.2 0

/-- Claim C6, counterexample: the empty token list joins to the empty line,
which tokenizes to one empty Token rather than back to the empty list. -/
theorem claim6_empty_list_counterexample :
    (tokenize (joinSpace [])).map CommandPart.slice ≠ ([] : List Str) := by decide

/-- Claim C6, amended: for every non-empty list of token strings free of
spaces and quotes, joining with single spaces and tokenizing reproduces the
original list exactly. -/
theorem claim6_roundtrip (l : List Str) (hne : l ≠ [])
    (hl : ∀ x ∈ l, ' ' ∉ x ∧ '\'' ∉ x) :
    (tokenize (joinSpace l)).map CommandPart.slice = l := by
  induction l with
  | nil => exact absurd rfl hne
  | cons x t ih =>
    cases t with
    | nil =>
      cases x with
      | nil => decide
      | cons a as =>
        have hsp := (hl (a :: as) (by simp)).1
        have hq := (hl (a :: as) (by simp)).2
        show (tokenize (a :: as)).map CommandPart.slice = [a :: as]
        rw [show tokenize (a :: as) = tokenizeFrom (a :: as) 0 from rfl,
          tokenizeFrom_unfold, next_word_whole a as hsp hq]
        dsimp only
        rw [tokenizeFrom_past _ _ (by simp)]
        simp [CommandPart.new]
    | cons y t2 =>
      have ihr := ih (by simp) (fun z hz => hl z (List.mem_cons_of_mem _ hz))
      have hline : joinSpace (x :: y :: t2) = x ++ ' ' :: joinSpace (y :: t2) := rfl
      rw [hline]
      cases x with
      | nil =>
        rw [List.nil_append]
        rw [show tokenize (' ' :: joinSpace (y :: t2))
            = tokenizeFrom (' ' :: joinSpace (y :: t2)) 0 from rfl,
          tokenizeFrom_unfold, next_space_cons]
        dsimp only
        rw [tokenizeFrom_shift _ 1 (by simp)]
        rw [show (' ' :: joinSpace (y :: t2)).drop 1 = joinSpace (y :: t2) from rfl]
        simp only [List.map_cons, ihr]
        rfl
      | cons a as =>
        have hsp := (hl (a :: as) (by simp)).1
        have hq := (hl (a :: as) (by simp)).2
        rw [show tokenize ((a :: as) ++ ' ' :: joinSpace (y :: t2))
            = tokenizeFrom ((a :: as) ++ ' ' :: joinSpace (y :: t2)) 0 from rfl,
          tokenizeFrom_unfold, next_word_append a as _ hsp hq]
        dsimp only
        rw [tokenizeFrom_shift _ ((a :: as).length + 1) (by simp)]
        rw [show ((a :: as) ++ ' ' :: joinSpace (y :: t2)).drop ((a :: as).length + 1)
            = joinSpace (y :: t2) by
          rw [drop_add _ (a :: as).length 1, List.drop_left]
          rfl]
        simp only [List.map_cons, ihr]
        simp [CommandPart.new]

/-- Claim C6, witness: the round trip at the two-token list a, b. -/
theorem claim6_witness :
    (tokenize (joinSpace [['a'], ['b']])).map CommandPart.slice = [['a'], ['b']] :=
  claim6_roundtrip [['a'], ['b']] (by decide) (by decide)

/-- Claim C7, counterexample: tokenizing a quoted token whose closing quote
is not followed by a space emits an error Token whose content contains a
space while its contains_space flag is false (CommandPart::error always
clears the flag, cmdui.rs:276-282). -/
theorem claim7_error_token_counterexample :
    ∃ t ∈ tokenize "'a b'x".toList,
      t.slice.contains ' ' = true ∧ t.is_quoted = false := by decide

/-- Claim C7, amended: for every Token emitted by the tokenizer, the
contains_space flag is true iff the Token is not an error Token and its
content contains a space; error Tokens always carry a false flag. -/
theorem claim7_contains_space_flag (line : Str) (t : CommandPart)
    (ht : t ∈ tokenize line) :
    t.is_quoted = (!t.is_error && t.slice.contains ' ') :=
  partsFromF_flag _ line 0 t ht

/-- Claim C7, witness: the flag equivalence on the tokens of a one-word
line. -/
theorem claim7_witness :
    (CommandPart.new ['a']).is_quoted
      = (!(CommandPart.new ['a']).is_error && (CommandPart.new ['a']).slice.contains ' ') :=
  claim7_contains_space_flag ['a'] (CommandPart.new ['a']) (by decide)

/-- Claim C8: when the character at position p is a quote, the next quote
is at position q, and position q + 1 is neither a space nor the end of the
line, the tokenizer step at p emits exactly one error Token whose content
is the slice from p (the opening quote) up to q (the character before the
closing quote), and scanning resumes at q + 1 (cmdui.rs:388-393). -/
theorem claim8_quote_error_step (line : Str) (p q : Nat)
    (hq : charIs line p '\'' = true)
    (hfind : findFrom line (p + 1) '\'' = some q)
    (hend : q + 1 ≠ line.length)
    (hsp : charIs line (q + 1) ' ' = false) :
    next line p = some (CommandPart.error (slice line p q), q + 1) := by
  have hlt : p < line.length := charIs_true_lt hq
  have h1 : ¬ (p > line.length) := by omega
  have h2 : p ≠ line.length := by omega
  simp [next, h1, h2, hq, hfind, hend, hsp]

/-- Claim C8, witness: the error step on the line 'bad'x. -/
theorem claim8_witness :
    next "'bad'x".toList 0
      = some (CommandPart.error (slice "'bad'x".toList 0 4), 5) :=
  claim8_quote_error_step "'bad'x".toList 0 4 (by decide) (by decide)
    (by decide) (by decide)

/-! ### Dispatcher lemmas and claims -/

theorem joinSpace_append (taken : List Str) (a : Str) :
    joinSpace (taken ++ [a]) = if taken.isEmpty then a else joinSpace taken ++ ' ' :: a := by
  induction taken with
  | nil => rfl
  | cons x t ih =>
    cases t with
    | nil => rfl
    | cons y t2 =>
      have h1 : joinSpace ((x :: y :: t2) ++ [a])
          = x ++ ' ' :: joinSpace ((y :: t2) ++ [a]) := rfl
      have h2 : joinSpace (x :: y :: t2) = x ++ ' ' :: joinSpace (y :: t2) := rfl
      rw [h1, ih, h2]
      simp [List.append_assoc]

theorem dispatchGo_cons (a : Str) (rest cmdlist : List Str) (cmd : Str) :
    dispatchGo (a :: rest) cmdlist cmd =
      if (strStartsWith a ['<'] && strEndsWith a ['>']) = true then (cmd, a :: rest)
      else if a.isEmpty = true then dispatchGo rest cmdlist cmd
      else if (cmdlist.filter (fun c => strStartsWith c
          (if cmd.isEmpty = true then a else cmd ++ ' ' :: a))).length > 0 then
        dispatchGo rest
          (cmdlist.filter (fun c => strStartsWith c
            (if cmd.isEmpty = true then a else cmd ++ ' ' :: a)))
          (if cmd.isEmpty = true then a else cmd ++ ' ' :: a)
      else (cmd, a :: rest) := rfl

theorem dispatchGo_inv (args : List Str) : ∀ (cmdlist : List Str) (cmd : Str)
    (templates : List Str) (taken : List Str),
    cmd = joinSpace taken →
    (taken = [] ↔ cmd = []) →
    (∀ x ∈ taken, x ≠ [] ∧ (strStartsWith x ['<'] && strEndsWith x ['>']) = false) →
    (cmd ≠ [] → ∃ t ∈ templates, strStartsWith t cmd = true) →
    (∀ c ∈ cmdlist, c ∈ templates) →
    ∃ taken' : List Str,
      (dispatchGo args cmdlist cmd).1 = joinSpace taken' ∧
      (∀ x ∈ taken', x ≠ [] ∧ (strStartsWith x ['<'] && strEndsWith x ['>']) = false) ∧
      ((dispatchGo args cmdlist cmd).1 ≠ [] →
        ∃ t ∈ templates, strStartsWith t (dispatchGo args cmdlist cmd).1 = true) := by
  induction args with
  | nil =>
    intro cmdlist cmd templates taken h1 _ h3 h4 _
    exact ⟨taken, h1, h3, h4⟩
  | cons a rest ih =>
    intro cmdlist cmd templates taken h1 h2 h3 h4 h5
    by_cases hsh : (strStartsWith a ['<'] && strEndsWith a ['>']) = true
    · have heq : dispatchGo (a :: rest) cmdlist cmd = (cmd, a :: rest) := by
        rw [dispatchGo_cons, if_pos hsh]
      rw [heq]
      exact ⟨taken, h1, h3, h4⟩
    · by_cases hemp : a.isEmpty = true
      · have heq : dispatchGo (a :: rest) cmdlist cmd = dispatchGo rest cmdlist cmd := by
          rw [dispatchGo_cons, if_neg hsh, if_pos hemp]
        rw [heq]
        exact ih cmdlist cmd templates taken h1 h2 h3 h4 h5
      · have ha : a ≠ [] := by
          intro hcon
          exact hemp (by simp [hcon])
        by_cases hlen :
            (cmdlist.filter (fun c => strStartsWith c
              (if cmd.isEmpty then a else cmd ++ ' ' :: a))).length > 0
        · have heq : dispatchGo (a :: rest) cmdlist cmd
              = dispatchGo rest
                  (cmdlist.filter (fun c => strStartsWith c
                    (if cmd.isEmpty then a else cmd ++ ' ' :: a)))
                  (if cmd.isEmpty then a else cmd ++ ' ' :: a) := by
            rw [dispatchGo_cons, if_neg hsh, if_neg hemp, if_pos hlen]
          rw [heq]
          have hpne : (if cmd.isEmpty then a else cmd ++ ' ' :: a) ≠ [] := by
            by_cases hc : cmd.isEmpty = true
            · simpa [hc] using ha
            · simp [hc]
          have h1' : (if cmd.isEmpty then a else cmd ++ ' ' :: a)
              = joinSpace (taken ++ [a]) := by
            rw [joinSpace_append]
            by_cases hc : cmd.isEmpty = true
            · have htk : taken = [] := h2.mpr (by simpa using hc)
              simp [hc, htk]
            · have htk : ¬ (taken.isEmpty = true) := by
                intro hcon
                have : taken = [] := by simpa using hcon
                have : cmd = [] := h2.mp this
                exact hc (by simp [this])
              rw [if_neg hc, if_neg htk, h1]
          have h2' : taken ++ [a] = [] ↔ (if cmd.isEmpty then a else cmd ++ ' ' :: a) = [] := by
            constructor
            · intro hcon
              exact absurd hcon (by simp)
            · intro hcon
              exact absurd hcon hpne
          have h3' : ∀ x ∈ taken ++ [a],
              x ≠ [] ∧ (strStartsWith x ['<'] && strEndsWith x ['>']) = false := by
            intro x hx
            rcases List.mem_append.mp hx with hx | hx
            · exact h3 x hx
            · have : x = a := by simpa using hx
              subst this
              exact ⟨ha, by simpa using hsh⟩
          have h4' : (if cmd.isEmpty then a else cmd ++ ' ' :: a) ≠ [] →
              ∃ t ∈ templates,
                strStartsWith t (if cmd.isEmpty then a else cmd ++ ' ' :: a) = true := by
            intro _
            have hne : (cmdlist.filter (fun c => strStartsWith c
                (if cmd.isEmpty then a else cmd ++ ' ' :: a))) ≠ [] := by
              intro hcon
              rw [hcon] at hlen
              simp at hlen
            obtain ⟨t, ht⟩ := List.exists_mem_of_ne_nil _ hne
            have htm := List.mem_filter.mp ht
            exact ⟨t, h5 t htm.1, htm.2⟩
          have h5' : ∀ c ∈ (cmdlist.filter (fun c => strStartsWith c
              (if cmd.isEmpty then a else cmd ++ ' ' :: a))), c ∈ templates := by
            intro c hc
            exact h5 c (List.mem_filter.mp hc).1
          exact ih _ _ templates (taken ++ [a]) h1' h2' h3' h4' h5'
        · have heq : dispatchGo (a :: rest) cmdlist cmd = (cmd, a :: rest) := by
            rw [dispatchGo_cons, if_neg hsh, if_neg hemp, if_neg hlen]
          rw [heq]
          exact ⟨taken, h1, h3, h4⟩

/-- Claim C1, counterexample: with the single registered Template run and
the typed token r, the dispatcher produces the identifier r, which is not a
token-for-token prefix of the literal portion of any registered Template —
the code matches a literal string prefix of the template text instead
(cmdui.rs:661-663). -/
theorem claim1_counterexample :
    (dispatch [['r']] ["run".toList]).1 = ['r'] ∧
    ¬ ∃ t ∈ ["run".toList],
        ((tokenize (dispatch [['r']] ["run".toList]).1).map CommandPart.slice).isPrefixOf
          (literalPortion t) = true := by decide

/-- Claim C1, amended: the identifier produced by dispatch is the
space-join of consumed tokens none of which is empty or placeholder-shaped,
and whenever it is non-empty it is a string prefix of the full text of at
least one registered Template (not necessarily token-for-token, and
possibly reaching into the placeholder portion). -/
theorem claim1_identifier (args templates : List Str) :
    ∃ taken : List Str,
      (dispatch args templates).1 = joinSpace taken ∧
      (∀ x ∈ taken, x ≠ [] ∧ (strStartsWith x ['<'] && strEndsWith x ['>']) = false) ∧
      ((dispatch args templates).1 ≠ [] →
        ∃ t ∈ templates, strStartsWith t (dispatch args templates).1 = true) :=
  dispatchGo_inv args templates [] templates [] rfl (by simp)
    (by intro x hx; exact absurd hx (List.not_mem_nil x))
    (by intro h; exact absurd rfl h)
    (fun _ h => h)

/-- Claim C1, witness: the amended statement at the typed tokens set, x
against the single template set. -/
theorem claim1_witness :
    ∃ taken : List Str,
      (dispatch ["set".toList, ['x']] ["set".toList]).1 = joinSpace taken ∧
      (∀ x ∈ taken, x ≠ [] ∧ (strStartsWith x ['<'] && strEndsWith x ['>']) = false) ∧
      ((dispatch ["set".toList, ['x']] ["set".toList]).1 ≠ [] →
        ∃ t ∈ ["set".toList],
          strStartsWith t (dispatch ["set".toList, ['x']] ["set".toList]).1 = true) :=
  claim1_identifier ["set".toList, ['x']] ["set".toList]

/-! ### Pager and helper claims -/

/-- Claim C9: the layout computation of print_columns divides the terminal
width by max_item_width + 2 and then divides the terminal width by the
resulting column count; it succeeds (no division by zero) exactly when at
least one column fits, i.e. max_item_width + 2 ≤ terminal width. -/
theorem claim9_layout_total_iff (termW maxLine : Nat) :
    (layoutParams termW maxLine).isSome ↔ maxLine + 2 ≤ termW := by
  unfold layoutParams checkedDiv
  rw [if_neg (show ¬ (maxLine + 2 = 0) by omega)]
  have hiff : termW / (maxLine + 2) = 0 ↔ termW < maxLine + 2 :=
    Nat.div_eq_zero_iff (by omega)
  by_cases hc : termW / (maxLine + 2) = 0
  · have h2 : termW < maxLine + 2 := hiff.mp hc
    simp [hc]
    omega
  · have h2 : ¬ (termW < maxLine + 2) := fun h => hc (hiff.mpr h)
    simp [hc]
    omega

/-- Claim C9, witness: at width 80 and item width 28 the layout parameters
exist, matching the precondition 30 ≤ 80. -/
theorem claim9_witness : (layoutParams 80 28).isSome ↔ 28 + 2 ≤ 80 :=
  claim9_layout_total_iff 80 28

/-- Claim C10: expects_num_arguments errors, naming the expected count,
exactly when fewer than n arguments are present, and succeeds for every
argument list with n or more elements — surplus arguments are accepted. -/
theorem claim10_expects_num (args : List Str) (n : Nat) :
    (args.length < n →
      expects_num_arguments args n
        = Except.error ("Expected ".toList ++ (toString n).toList ++ " arguments".toList)) ∧
    (n ≤ args.length → expects_num_arguments args n = Except.ok ()) := by
  constructor
  · intro h
    unfold expects_num_arguments
    rw [if_pos h]
  · intro h
    unfold expects_num_arguments
    rw [if_neg (by omega)]

/-- Claim C10, witness: zero arguments against two expected errors with the
count in the message, and one surplus-free argument against one expected
succeeds. -/
theorem claim10_witness :
    expects_num_arguments [] 2
      = Except.error ("Expected ".toList ++ (toString 2).toList ++ " arguments".toList) ∧
    expects_num_arguments [['a'], ['b']] 1 = Except.ok () :=
  ⟨(claim10_expects_num [] 2).1 (by decide),
    (claim10_expects_num [['a'], ['b']] 1).2 (by decide)⟩

theorem chunksF_congr (f1 : Nat) : ∀ (f2 k : Nat) (l : List Str), 1 ≤ k →
    l.length ≤ f1 → l.length ≤ f2 → chunksF f1 k l = chunksF f2 k l := by
  induction f1 with
  | zero =>
    intro f2 k l _ h1 _
    have : l = [] := List.eq_nil_of_length_eq_zero (by omega)
    subst this
    cases f2 <;> rfl
  | succ f ih =>
    intro f2 k l hk h1 h2
    cases l with
    | nil => cases f2 <;> rfl
    | cons x xs =>
      cases f2 with
      | zero => simp at h2
      | succ g =>
        show (x :: xs).take k :: chunksF f k ((x :: xs).drop k)
          = (x :: xs).take k :: chunksF g k ((x :: xs).drop k)
        have hd : ((x :: xs).drop k).length = (x :: xs).length - k := List.length_drop k _
        rw [ih g k ((x :: xs).drop k) hk (by simp at h1 ⊢; omega) (by simp at h2 ⊢; omega)]

theorem chunks_cons (k : Nat) (hk : 1 ≤ k) (x : Str) (xs : List Str) :
    chunks k (x :: xs) = (x :: xs).take k :: chunks k ((x :: xs).drop k) := by
  show chunksF (xs.length + 1) k (x :: xs) = _
  rw [show chunksF (xs.length + 1) k (x :: xs)
      = (x :: xs).take k :: chunksF xs.length k ((x :: xs).drop k) from rfl]
  unfold chunks
  rw [chunksF_congr xs.length (((x :: xs).drop k).length) k ((x :: xs).drop k) hk
    (by simp [List.length_drop]; omega) (le_refl _)]

theorem printPassGo_cons (cols cwidth : Nat) (x : Str) (rest : List Str) (i : Nat) :
    printPassGo cols cwidth (x :: rest) i =
      if (i + 1) % cols = 0 then x ++ '\n' :: printPassGo cols cwidth rest ((i + 1) % cols)
      else padTo cwidth x ++ printPassGo cols cwidth rest ((i + 1) % cols) := rfl

theorem printPassGo_count (cols cwidth : Nat) :
    ∀ (l : List Str) (i r : Nat), i + r = cols → 1 ≤ r →
    printPassGo cols cwidth l i =
      if l = [] then (if i = 0 then [] else ['\n'])
      else if l.length < r then padCat cwidth l ++ ['\n']
      else padCat cwidth (l.take (r - 1)) ++ (l[r - 1]?).getD []
        ++ '\n' :: printPassGo cols cwidth (l.drop r) 0 := by
  intro l
  induction l with
  | nil =>
    intro i r _ _
    by_cases hi : i = 0 <;> simp [printPassGo, hi]
  | cons x xs ih =>
    intro i r h hr
    by_cases hr1 : r = 1
    · subst hr1
      have hcols : i + 1 = cols := by omega
      have hmod : (i + 1) % cols = 0 := by rw [hcols]; exact Nat.mod_self cols
      rw [printPassGo_cons, if_pos hmod, hmod]
      rw [if_neg (show ¬ (x :: xs = []) by simp),
        if_neg (show ¬ ((x :: xs).length < 1) by simp)]
      simp [padCat]
    · have hr2 : 2 ≤ r := by omega
      have hlt : i + 1 < cols := by omega
      have hmod : (i + 1) % cols = i + 1 := Nat.mod_eq_of_lt hlt
      have hne : ¬ ((i + 1) % cols = 0) := by rw [hmod]; omega
      rw [printPassGo_cons, if_neg hne, hmod]
      rw [ih (i + 1) (r - 1) (by omega) (by omega)]
      by_cases hxs : xs = []
      · subst hxs
        rw [if_pos rfl, if_neg (show ¬ (i + 1 = 0) by omega)]
        rw [if_neg (show ¬ (([x] : List Str) = []) by simp),
          if_pos (show ([x] : List Str).length < r by simp; omega)]
        simp [padCat]
      · rw [if_neg hxs]
        by_cases hlen : xs.length < r - 1
        · rw [if_pos hlen]
          rw [if_neg (show ¬ (x :: xs = []) by simp),
            if_pos (show (x :: xs).length < r by simp; omega)]
          simp [padCat, List.append_assoc]
        · rw [if_neg hlen]
          rw [if_neg (show ¬ (x :: xs = []) by simp),
            if_neg (show ¬ ((x :: xs).length < r) by simp; omega)]
          have h1 : (x :: xs).take (r - 1) = x :: xs.take (r - 2) := by
            rw [show r - 1 = (r - 2) + 1 by omega]
            rfl
          have h2 : ((x :: xs)[r - 1]?).getD [] = (xs[r - 2]?).getD [] := by
            rw [show r - 1 = (r - 2) + 1 by omega, List.getElem?_cons_succ]
          have h3 : (x :: xs).drop r = xs.drop (r - 1) := by
            conv_lhs => rw [show r = (r - 1) + 1 by omega]
            rw [List.drop_succ_cons]
          rw [h1, h2, h3]
          simp [padCat, List.append_assoc]
          rw [show r - 1 - 1 = r - 2 by omega]

theorem printPassGo_row (cols cwidth : Nat) (hc : 1 ≤ cols) (l : List Str) (hl : l ≠ []) :
    printPassGo cols cwidth l 0 =
      (if (l.take cols).length = cols then
        padCat cwidth (l.take cols).dropLast ++ ((l.take cols).getLast?).getD [] ++ ['\n']
      else padCat cwidth (l.take cols) ++ ['\n']) ++ printPassGo cols cwidth (l.drop cols) 0 := by
  rw [printPassGo_count cols cwidth l 0 cols (by omega) hc, if_neg hl]
  by_cases hlen : l.length < cols
  · rw [if_pos hlen]
    have ht : l.take cols = l := List.take_of_length_le (by omega)
    rw [if_neg (show ¬ ((l.take cols).length = cols) by rw [ht]; omega)]
    have hd : l.drop cols = [] := List.drop_eq_nil_of_le (by omega)
    rw [hd, ht]
    simp [printPassGo]
  · rw [if_neg hlen]
    have hlc : (l.take cols).length = cols := by simp [List.length_take]; omega
    rw [if_pos hlc]
    have h1 : (l.take cols).dropLast = l.take (cols - 1) := by
      rw [List.dropLast_eq_take, hlc, List.take_take]
      congr 1
      omega
    have h2 : ((l.take cols).getLast?).getD [] = (l[cols - 1]?).getD [] := by
      have hgl : (l.take cols).getLast? = (l.take cols)[(l.take cols).length - 1]? :=
        List.getLast?_eq_getElem? _
      rw [hgl, hlc]
      rw [List.getElem?_take, if_pos (show cols - 1 < cols by omega)]
    rw [h1, h2]
    simp [List.append_assoc]

theorem printPass_rows (cols cwidth : Nat) (hc : 1 ≤ cols) (l : List Str) :
    printPassGo cols cwidth l 0 =
      ((chunks cols l).map (fun row =>
        if row.length = cols then
          padCat cwidth row.dropLast ++ (row.getLast?).getD [] ++ ['\n']
        else padCat cwidth row ++ ['\n'])).flatten := by
  generalize hn : l.length = n
  induction n using Nat.strong_induction_on generalizing l with
  | _ n ih =>
    cases l with
    | nil => simp [printPassGo, chunks, chunksF]
    | cons x xs =>
      rw [printPassGo_row cols cwidth hc (x :: xs) (by simp), chunks_cons cols hc x xs]
      rw [List.map_cons, List.flatten_cons]
      congr 1
      exact ih (((x :: xs).drop cols).length
        ) (by simp [List.length_drop] at hn ⊢; omega) _ rfl

/-- Claim C5, counterexample: with terminal width 80 and max item width 28
the column width used for padding is 80 / (80 / 30) = 40, not the claimed
28 + 2 = 30, and the last item of the trailing incomplete row is padded
rather than printed bare — so the printed pass differs from the layout the
claim describes. -/
theorem claim5_counterexample :
    printColumnsOnePass 80 [['a'], ['b'], ['c']] 28
      ≠ claimColumnsLayout 80 [['a'], ['b'], ['c']] 28 := by decide

/-- Claim C5, amended: when at least one column fits, the printed pass is
row-major with cols = terminal width / (max item width + 2) items per row;
within a complete row every item except the last is left-justified to the
column width terminal width / cols — which is at least max item width + 2
but can exceed it — and the last item is printed unpadded followed by a
line break; the items of a trailing incomplete row are all left-justified
to the column width and followed by a final line break. -/
theorem claim5_layout (termW maxLine : Nat) (items : List Str)
    (h : maxLine + 2 ≤ termW) :
    maxLine + 2 ≤ termW / (termW / (maxLine + 2)) ∧
    printColumnsOnePass termW items maxLine =
      ((chunks (termW / (maxLine + 2)) items).map (fun row =>
        if row.length = termW / (maxLine + 2) then
          padCat (termW / (termW / (maxLine + 2))) row.dropLast
            ++ (row.getLast?).getD [] ++ ['\n']
        else padCat (termW / (termW / (maxLine + 2))) row ++ ['\n'])).flatten := by
  have hc : 1 ≤ termW / (maxLine + 2) := by
    rw [Nat.le_div_iff_mul_le (show 0 < maxLine + 2 by omega)]
    omega
  constructor
  · have h1 : (termW / (maxLine + 2)) * (maxLine + 2) ≤ termW :=
      Nat.div_mul_le_self termW (maxLine + 2)
    calc maxLine + 2
        = ((termW / (maxLine + 2)) * (maxLine + 2)) / (termW / (maxLine + 2)) := by
          rw [Nat.mul_div_cancel_left _ (by omega : 0 < termW / (maxLine + 2))]
      _ ≤ termW / (termW / (maxLine + 2)) := Nat.div_le_div_right h1
  · exact printPass_rows _ _ hc items

/-- Claim C5, witness: the amended layout theorem at terminal width 80,
max item width 28 and three one-character items. -/
theorem claim5_witness :
    28 + 2 ≤ 80 ∧
    (28 + 2 ≤ 80 / (80 / (28 + 2)) ∧
     printColumnsOnePass 80 [['a'], ['b'], ['c']] 28 =
       ((chunks (80 / (28 + 2)) [['a'], ['b'], ['c']]).map (fun row =>
         if row.length = 80 / (28 + 2) then
           padCat (80 / (80 / (28 + 2))) row.dropLast
             ++ (row.getLast?).getD [] ++ ['\n']
         else padCat (80 / (80 / (28 + 2))) row ++ ['\n'])).flatten) :=
  ⟨by decide, claim5_layout 80 28 [['a'], ['b'], ['c']] (by decide)⟩

/-! ### Completion engine lemmas and claims -/

theorem walkParts_cons (expand : CommandPart → List Str → List Str)
    (lwords : List CommandPart) (n : Nat) (cp : CommandPart) (cps : List CommandPart)
    (i : Nat) (pfx : Str) (parts : List Str) (m : List Pair) :
    walkParts expand lwords n (cp :: cps) i pfx parts m =
      if i = lwords.length then m
      else
        if i = lwords.length - 1 then
          if (expand cp (parts ++ [(lwords.getD i emptyPart).to_string])).any
              (fun k => strStartsWith k (lwords.getD i emptyPart).slice) then
            walkParts expand lwords n cps (i + 1) pfx
              (parts ++ [(lwords.getD i emptyPart).to_string])
              ((expand cp (parts ++ [(lwords.getD i emptyPart).to_string])).foldl
                (fun acc k =>
                  if strStartsWith k (lwords.getD i emptyPart).slice then
                    pairsInsert acc
                      { display := (CommandPart.new k).to_string
                        replacement := pfx ++ (CommandPart.new k).to_string
                          ++ (if i + 1 < n then [' '] else []) }
                  else acc) m)
          else
            (expand cp (parts ++ [(lwords.getD i emptyPart).to_string])).foldl
              (fun acc k =>
                if strStartsWith k (lwords.getD i emptyPart).slice then
                  pairsInsert acc
                    { display := (CommandPart.new k).to_string
                      replacement := pfx ++ (CommandPart.new k).to_string
                        ++ (if i + 1 < n then [' '] else []) }
                else acc) m
        else
          if (expand cp (parts ++ [(lwords.getD i emptyPart).to_string])).any
              (fun k => strStartsWith cp.slice ['<'] || (lwords.getD i emptyPart).slice == k) then
            walkParts expand lwords n cps (i + 1)
              (pfx ++ (lwords.getD i emptyPart).to_string ++ [' '])
              (parts ++ [(lwords.getD i emptyPart).to_string]) m
          else m := rfl

theorem walkEmits_cons (expand : CommandPart → List Str → List Str)
    (lwords : List CommandPart) (n : Nat) (cp : CommandPart) (cps : List CommandPart)
    (i : Nat) (pfx : Str) (parts : List Str) :
    walkEmits expand lwords n (cp :: cps) i pfx parts =
      if i = lwords.length then []
      else
        if i = lwords.length - 1 then
          ((expand cp (parts ++ [(lwords.getD i emptyPart).to_string])).filterMap
            (fun k =>
              if strStartsWith k (lwords.getD i emptyPart).slice then
                some { display := (CommandPart.new k).to_string
                       replacement := pfx ++ (CommandPart.new k).to_string
                         ++ (if i + 1 < n then [' '] else []) }
              else none)) ++
            (if (expand cp (parts ++ [(lwords.getD i emptyPart).to_string])).any
                (fun k => strStartsWith k (lwords.getD i emptyPart).slice) then
              walkEmits expand lwords n cps (i + 1) pfx
                (parts ++ [(lwords.getD i emptyPart).to_string])
            else [])
        else
          if (expand cp (parts ++ [(lwords.getD i emptyPart).to_string])).any
              (fun k => strStartsWith cp.slice ['<'] || (lwords.getD i emptyPart).slice == k) then
            walkEmits expand lwords n cps (i + 1)
              (pfx ++ (lwords.getD i emptyPart).to_string ++ [' '])
              (parts ++ [(lwords.getD i emptyPart).to_string])
          else [] := rfl

/-- Claim C3, counterexample: with the single template consisting of a
placeholder part followed by the literal b, the typed error-free tokens a,
b, and a provider that returns the empty list for the placeholder, the
template is abandoned and no candidate is produced; the same provider
returning one dummy value for the placeholder yields the candidate b — so
matching does not continue when the placeholder expansion is empty. -/
theorem claim3_counterexample :
    completeParts (fun cp _ => if cp.slice == "<p>".toList then [] else [cp.slice])
      ["<p> b".toList] (tokenize "a b".toList) = [] ∧
    completeParts (fun cp _ => if cp.slice == "<p>".toList then [['z']] else [cp.slice])
      ["<p> b".toList] (tokenize "a b".toList)
      = [{ display := ['b'], replacement := "a b".toList }] :=
  ⟨by decide, by decide⟩

/-- Claim C3, amended: during completion, a non-last placeholder-shaped
template part accepts the typed token at its index without any validation
against the returned values, and matching continues — provided the
expansion provider returns at least one value for that part; when it
returns the empty list, the inner loop never runs and the template is
abandoned (got_matches stays false, cmdui.rs:487-534). -/
theorem claim3_placeholder (expand : CommandPart → List Str → List Str)
    (lwords : List CommandPart) (n : Nat) (cp : CommandPart) (cps : List CommandPart)
    (i : Nat) (pfx : Str) (parts : List Str) (m : List Pair)
    (hnotend : i ≠ lwords.length) (hnotlast : i ≠ lwords.length - 1)
    (hph : strStartsWith cp.slice ['<'] = true) :
    (expand cp (parts ++ [(lwords.getD i emptyPart).to_string]) ≠ [] →
      walkParts expand lwords n (cp :: cps) i pfx parts m =
        walkParts expand lwords n cps (i + 1)
          (pfx ++ (lwords.getD i emptyPart).to_string ++ [' '])
          (parts ++ [(lwords.getD i emptyPart).to_string]) m) ∧
    (expand cp (parts ++ [(lwords.getD i emptyPart).to_string]) = [] →
      walkParts expand lwords n (cp :: cps) i pfx parts m = m) := by
  constructor
  · intro hkeys
    rw [walkParts_cons, if_neg hnotend, if_neg hnotlast]
    have hany : (expand cp (parts ++ [(lwords.getD i emptyPart).to_string])).any
        (fun k => strStartsWith cp.slice ['<'] || (lwords.getD i emptyPart).slice == k) = true := by
      cases hk : expand cp (parts ++ [(lwords.getD i emptyPart).to_string]) with
      | nil => exact absurd hk hkeys
      | cons k ks => simp [hph]
    rw [if_pos hany]
  · intro hkeys
    rw [walkParts_cons, if_neg hnotend, if_neg hnotlast, hkeys]
    simp

/-- Claim C3, witness: with the one-value-per-part provider and typed
tokens a, b, the placeholder part at index 0 of template parts p, b is
accepted and the walk continues at index 1 with the prefix extended. -/
theorem claim3_witness :
    walkParts (fun cp _ => [cp.slice]) [CommandPart.new ['a'], CommandPart.new ['b']] 2
      (CommandPart.new "<p>".toList :: [CommandPart.new ['b']]) 0 [] [] [] =
    walkParts (fun cp _ => [cp.slice]) [CommandPart.new ['a'], CommandPart.new ['b']] 2
      [CommandPart.new ['b']] 1 "a ".toList ["a".toList] [] := by
  rw [(claim3_placeholder (fun cp _ => [cp.slice])
    [CommandPart.new ['a'], CommandPart.new ['b']] 2 (CommandPart.new "<p>".toList)
    [CommandPart.new ['b']] 0 [] [] [] (by decide) (by decide) (by decide)).1 (by decide)]
  decide

theorem lookupD_insert (m : List Pair) (v : Pair) (d : Str) :
    lookupD (pairsInsert m v) d = if v.display = d then some v else lookupD m d := by
  induction m with
  | nil => rfl
  | cons e m ih =>
    by_cases he : e.display = v.display
    · rw [show pairsInsert (e :: m) v = v :: m by simp [pairsInsert, he]]
      by_cases hd : v.display = d
      · simp [lookupD, hd]
      · have hed : ¬ (e.display = d) := by rw [he]; exact hd
        simp [lookupD, hd, hed]
    · rw [show pairsInsert (e :: m) v = e :: pairsInsert m v by simp [pairsInsert, he]]
      by_cases hed : e.display = d
      · have hvd : ¬ (v.display = d) := by
          intro hcon
          exact he (by rw [hed, hcon])
        simp [lookupD, hed, hvd]
      · by_cases hvd : v.display = d
        · simp [lookupD, hed, hvd, ih]
        · simp [lookupD, hed, hvd, ih]

theorem mem_of_lookupD : ∀ (m : List Pair) (d : Str) (v : Pair),
    lookupD m d = some v → v ∈ m ∧ v.display = d := by
  intro m
  induction m with
  | nil => intro d v h; cases h
  | cons e m ih =>
    intro d v h
    by_cases hed : e.display = d
    · rw [show lookupD (e :: m) d = some e by simp [lookupD, hed]] at h
      obtain rfl : e = v := by injection h
      exact ⟨List.mem_cons_self e m, hed⟩
    · rw [show lookupD (e :: m) d = lookupD m d by simp [lookupD, hed]] at h
      obtain ⟨h1, h2⟩ := ih d v h
      exact ⟨List.mem_cons_of_mem e h1, h2⟩

theorem lookupD_eq_some_of_mem : ∀ (m : List Pair) (v : Pair),
    (m.map Pair.display).Nodup → v ∈ m → lookupD m v.display = some v := by
  intro m
  induction m with
  | nil => intro v _ hv; exact absurd hv (List.not_mem_nil v)
  | cons e m ih =>
    intro v hnd hv
    rcases List.mem_cons.mp hv with rfl | hv
    · simp [lookupD]
    · have hne : ¬ (e.display = v.display) := by
        intro hcon
        have : v.display ∈ m.map Pair.display := List.mem_map_of_mem Pair.display hv
        rw [List.map_cons, List.nodup_cons] at hnd
        exact hnd.1 (hcon ▸ this)
      rw [show lookupD (e :: m) v.display = lookupD m v.display by simp [lookupD, hne]]
      exact ih v (by rw [List.map_cons, List.nodup_cons] at hnd; exact hnd.2) hv

theorem pairsInsert_displays (m : List Pair) (v : Pair) :
    (pairsInsert m v).map Pair.display =
      if v.display ∈ m.map Pair.display then m.map Pair.display
      else m.map Pair.display ++ [v.display] := by
  induction m with
  | nil => simp [pairsInsert]
  | cons e m ih =>
    by_cases he : e.display = v.display
    · rw [show pairsInsert (e :: m) v = v :: m by simp [pairsInsert, he]]
      rw [if_pos (by simp [he.symm])]
      simp [he]
    · rw [show pairsInsert (e :: m) v = e :: pairsInsert m v by simp [pairsInsert, he]]
      by_cases hm : v.display ∈ m.map Pair.display
      · rw [if_pos (by simp [hm])]
        simp [ih, hm]
      · have hnot : ¬ (v.display ∈ (e :: m).map Pair.display) := by
          simp only [List.map_cons, List.mem_cons]
          push_neg
          exact ⟨fun hcon => he (hcon.symm), hm⟩
        rw [if_neg hnot]
        simp [ih, hm]

theorem pairsInsert_nodup (m : List Pair) (v : Pair)
    (h : (m.map Pair.display).Nodup) : ((pairsInsert m v).map Pair.display).Nodup := by
  rw [pairsInsert_displays]
  by_cases hm : v.display ∈ m.map Pair.display
  · rw [if_pos hm]
    exact h
  · rw [if_neg hm]
    rw [List.nodup_append]
    refine ⟨h, List.nodup_singleton _, ?_⟩
    intro a ha hb
    rw [List.mem_singleton] at hb
    subst hb
    exact hm ha

theorem foldl_insert_nodup (E : List Pair) : ∀ (m : List Pair),
    (m.map Pair.display).Nodup → ((E.foldl pairsInsert m).map Pair.display).Nodup := by
  induction E with
  | nil => intro m h; exact h
  | cons e E ih =>
    intro m h
    exact ih (pairsInsert m e) (pairsInsert_nodup m e h)

theorem optOr_none (x : Option Pair) : optOr none x = x := rfl

theorem optOr_some (v : Pair) (x : Option Pair) : optOr (some v) x = some v := rfl

theorem foldl_insert_lookup (E : List Pair) : ∀ (m : List Pair) (d : Str),
    lookupD (E.foldl pairsInsert m) d
      = optOr ((E.filter (fun e => e.display == d)).getLast?) (lookupD m d) := by
  induction E with
  | nil => intro m d; rfl
  | cons e E ih =>
    intro m d
    rw [List.foldl_cons, ih (pairsInsert m e) d, lookupD_insert]
    by_cases hd : e.display = d
    · rw [if_pos hd]
      rw [show (e :: E).filter (fun e => e.display == d) =
          e :: E.filter (fun e => e.display == d) by simp [List.filter_cons, hd]]
      cases hfe : (E.filter (fun e => e.display == d)).getLast? with
      | none =>
        have hnil : E.filter (fun e => e.display == d) = [] :=
          List.getLast?_eq_none_iff.mp hfe
        rw [hnil]
        rfl
      | some w =>
        have hco : (e :: E.filter (fun e => e.display == d)).getLast? = some w := by
          cases hE : E.filter (fun e => e.display == d) with
          | nil => rw [hE] at hfe; cases hfe
          | cons y ys =>
            rw [hE] at hfe
            rw [List.getLast?_cons_cons]
            exact hfe
        rw [hco]
        rfl
    · rw [if_neg hd]
      rw [show (e :: E).filter (fun e => e.display == d) =
          E.filter (fun e => e.display == d) by simp [List.filter_cons, hd]]

theorem foldl_filterMap (c : Str → Bool) (g : Str → Pair) :
    ∀ (keys : List Str) (m : List Pair),
      keys.foldl (fun acc k => if c k then pairsInsert acc (g k) else acc) m
        = (keys.filterMap (fun k => if c k then some (g k) else none)).foldl pairsInsert m := by
  intro keys
  induction keys with
  | nil => intro m; rfl
  | cons k ks ih =>
    intro m
    by_cases hk : c k = true
    · rw [List.foldl_cons, if_pos hk,
        show (k :: ks).filterMap (fun k => if c k then some (g k) else none)
          = g k :: ks.filterMap (fun k => if c k then some (g k) else none) by
            simp [List.filterMap_cons, hk],
        List.foldl_cons]
      exact ih (pairsInsert m (g k))
    · rw [List.foldl_cons, if_neg hk,
        show (k :: ks).filterMap (fun k => if c k then some (g k) else none)
          = ks.filterMap (fun k => if c k then some (g k) else none) by
            simp [List.filterMap_cons, hk]]
      exact ih m

theorem walkParts_eq_emits (expand : CommandPart → List Str → List Str)
    (lwords : List CommandPart) (n : Nat) :
    ∀ (cps : List CommandPart) (i : Nat) (pfx : Str) (parts : List Str) (m : List Pair),
      walkParts expand lwords n cps i pfx parts m
        = (walkEmits expand lwords n cps i pfx parts).foldl pairsInsert m := by
  intro cps
  induction cps with
  | nil => intro i pfx parts m; rfl
  | cons cp cps ih =>
    intro i pfx parts m
    rw [walkParts_cons, walkEmits_cons]
    by_cases h1 : i = lwords.length
    · rw [if_pos h1, if_pos h1]
      rfl
    rw [if_neg h1, if_neg h1]
    by_cases h2 : i = lwords.length - 1
    · rw [if_pos h2, if_pos h2]
      rw [foldl_filterMap (fun k => strStartsWith k (lwords.getD i emptyPart).slice)
        (fun k => { display := (CommandPart.new k).to_string
                    replacement := pfx ++ (CommandPart.new k).to_string
                      ++ (if i + 1 < n then [' '] else []) })]
      by_cases hany : (expand cp (parts ++ [(lwords.getD i emptyPart).to_string])).any
          (fun k => strStartsWith k (lwords.getD i emptyPart).slice) = true
      · rw [if_pos hany, if_pos hany, List.foldl_append]
        exact ih (i + 1) pfx (parts ++ [(lwords.getD i emptyPart).to_string]) _
      · rw [if_neg hany, if_neg hany, List.append_nil]
    · rw [if_neg h2, if_neg h2]
      by_cases hany : (expand cp (parts ++ [(lwords.getD i emptyPart).to_string])).any
          (fun k => strStartsWith cp.slice ['<'] || (lwords.getD i emptyPart).slice == k) = true
      · rw [if_pos hany, if_pos hany]
        exact ih (i + 1) (pfx ++ (lwords.getD i emptyPart).to_string ++ [' '])
          (parts ++ [(lwords.getD i emptyPart).to_string]) m
      · rw [if_neg hany, if_neg hany]
        rfl

theorem completeParts_eq_emits (expand : CommandPart → List Str → List Str)
    (commands : List Str) (lwords : List CommandPart) :
    completeParts expand commands lwords
      = ((completeEmits expand commands lwords).foldl pairsInsert []).insertionSort pairLe := by
  unfold completeParts completeEmits
  by_cases herr : lwords.any (·.is_error) = true
  · rw [if_pos herr, if_pos herr]
    rfl
  · rw [if_neg herr, if_neg herr]
    have hgen : ∀ (cmds : List Str) (m : List Pair),
        cmds.foldl (fun m cmd =>
          walkParts expand lwords (tokenize cmd).length (tokenize cmd) 0 [] [] m) m
          = ((cmds.map (fun cmd =>
              walkEmits expand lwords (tokenize cmd).length (tokenize cmd) 0 [] [])).flatten
            ).foldl pairsInsert m := by
      intro cmds
      induction cmds with
      | nil => intro m; rfl
      | cons c cs ih =>
        intro m
        rw [List.map_cons, List.flatten_cons, List.foldl_append, List.foldl_cons]
        rw [walkParts_eq_emits expand lwords (tokenize c).length (tokenize c) 0 [] [] m]
        exact ih _
    exact congrArg (List.insertionSort pairLe) (hgen commands [])

theorem strLe_total (a : Str) : ∀ (b : Str), strLe a b = true ∨ strLe b a = true := by
  induction a with
  | nil => intro b; left; rfl
  | cons x xs ih =>
    intro b
    cases b with
    | nil => right; rfl
    | cons y ys =>
      rcases Nat.lt_trichotomy x.toNat y.toNat with h | h | h
      · left
        simp [strLe, h]
      · rcases ih ys with h2 | h2
        · left
          simp [strLe, h, h2, Nat.lt_irrefl]
        · right
          simp [strLe, h.symm, h2, Nat.lt_irrefl]
      · right
        simp [strLe, h]

theorem strLe_trans : ∀ (a b c : Str),
    strLe a b = true → strLe b c = true → strLe a c = true
  | [], _, _, _, _ => rfl
  | x :: xs, [], _, h1, _ => by cases h1
  | _ :: _, _ :: _, [], _, h2 => by cases h2
  | x :: xs, y :: ys, z :: zs, h1, h2 => by
    by_cases hxy : x.toNat < y.toNat
    · by_cases hyz : y.toNat < z.toNat
      · simp [strLe, Nat.lt_trans hxy hyz]
      · have hzy : ¬ (z.toNat < y.toNat) := by
          intro hcon
          rw [show strLe (y :: ys) (z :: zs)
              = (if y.toNat < z.toNat then true
                else if z.toNat < y.toNat then false else strLe ys zs) from rfl,
            if_neg hyz, if_pos hcon] at h2
          cases h2
        have : x.toNat < z.toNat := by omega
        simp [strLe, this]
    · by_cases hyx : y.toNat < x.toNat
      · rw [show strLe (x :: xs) (y :: ys)
            = (if x.toNat < y.toNat then true
              else if y.toNat < x.toNat then false else strLe xs ys) from rfl,
          if_neg hxy, if_pos hyx] at h1
        cases h1
      · rw [show strLe (x :: xs) (y :: ys)
            = (if x.toNat < y.toNat then true
              else if y.toNat < x.toNat then false else strLe xs ys) from rfl,
          if_neg hxy, if_neg hyx] at h1
        by_cases hyz : y.toNat < z.toNat
        · have : x.toNat < z.toNat := by omega
          simp [strLe, this]
        · by_cases hzy : z.toNat < y.toNat
          · rw [show strLe (y :: ys) (z :: zs)
                = (if y.toNat < z.toNat then true
                  else if z.toNat < y.toNat then false else strLe ys zs) from rfl,
              if_neg hyz, if_pos hzy] at h2
            cases h2
          · rw [show strLe (y :: ys) (z :: zs)
                = (if y.toNat < z.toNat then true
                  else if z.toNat < y.toNat then false else strLe ys zs) from rfl,
              if_neg hyz, if_neg hzy] at h2
            have hxz : ¬ (x.toNat < z.toNat) ∧ ¬ (z.toNat < x.toNat) := by omega
            rw [show strLe (x :: xs) (z :: zs)
                = (if x.toNat < z.toNat then true
                  else if z.toNat < x.toNat then false else strLe xs zs) from rfl,
              if_neg hxz.1, if_neg hxz.2]
            exact strLe_trans xs ys zs h1 h2

instance : IsTotal Pair pairLe :=
  ⟨fun a b => strLe_total a.display b.display⟩

instance : IsTrans Pair pairLe :=
  ⟨fun a b c h1 h2 => strLe_trans a.display b.display c.display h1 h2⟩

/-- Claim C2, counterexample: with templates a x and a x (z-placeholder)
and the typed line a x, both templates emit a candidate with display x but
different replacements (the second adds a trailing space); the candidate
kept is the LAST one emitted, not the first — HashMap::insert replaces the
value already stored under the display key (cmdui.rs:525-528). -/
theorem claim2_counterexample :
    (completeEmits (fun cp _ => [cp.slice]) ["a x".toList, "a x <z>".toList]
        (tokenize "a x".toList)).head?
      = some { display := ['x'], replacement := "a x".toList } ∧
    completeParts (fun cp _ => [cp.slice]) ["a x".toList, "a x <z>".toList]
      (tokenize "a x".toList)
      = [{ display := ['x'], replacement := "a x ".toList }] :=
  ⟨by decide, by decide⟩

/-- Claim C2, amended: for every error-free typed token list, template list
and expansion provider, the candidate list returned by complete has
pairwise-distinct display texts and is sorted ascending by display text,
and when several templates emit candidates with the same display text the
candidate kept is the last one emitted; every emitted display text is
represented in the result. -/
theorem claim2_candidates (expand : CommandPart → List Str → List Str)
    (commands : List Str) (lwords : List CommandPart)
    (_herr : ∀ w ∈ lwords, w.is_error = false) :
    ((completeParts expand commands lwords).map Pair.display).Nodup ∧
    List.Sorted pairLe (completeParts expand commands lwords) ∧
    (∀ v ∈ completeParts expand commands lwords,
      ((completeEmits expand commands lwords).filter
        (fun x => x.display == v.display)).getLast? = some v) ∧
    (∀ e ∈ completeEmits expand commands lwords,
      ∃ v ∈ completeParts expand commands lwords, v.display = e.display) := by
  have hkey := completeParts_eq_emits expand commands lwords
  have hnodupD :
      (((completeEmits expand commands lwords).foldl pairsInsert []).map Pair.display).Nodup :=
    foldl_insert_nodup _ [] (by simp)
  refine ⟨?_, ?_, ?_, ?_⟩
  · rw [hkey]
    have hperm := List.perm_insertionSort pairLe
      ((completeEmits expand commands lwords).foldl pairsInsert [])
    exact ((hperm.map Pair.display).nodup_iff).mpr hnodupD
  · rw [hkey]
    exact List.sorted_insertionSort pairLe _
  · intro v hv
    rw [hkey] at hv
    have hvD : v ∈ (completeEmits expand commands lwords).foldl pairsInsert [] :=
      (List.mem_insertionSort pairLe).mp hv
    have hlk : lookupD ((completeEmits expand commands lwords).foldl pairsInsert [])
        v.display = some v :=
      lookupD_eq_some_of_mem _ v hnodupD hvD
    rw [foldl_insert_lookup] at hlk
    cases hfe : ((completeEmits expand commands lwords).filter
        (fun x => x.display == v.display)).getLast? with
    | none =>
      rw [hfe] at hlk
      simp [optOr, lookupD] at hlk
    | some w =>
      rw [hfe] at hlk
      rw [show optOr (some w) (lookupD [] v.display) = some w from rfl] at hlk
      exact hlk
  · intro e he
    have hne : (completeEmits expand commands lwords).filter
        (fun x => x.display == e.display) ≠ [] := by
      intro hcon
      have hmem : e ∈ (completeEmits expand commands lwords).filter
          (fun x => x.display == e.display) :=
        List.mem_filter.mpr ⟨he, by simp⟩
      rw [hcon] at hmem
      exact absurd hmem (List.not_mem_nil e)
    cases hfe : ((completeEmits expand commands lwords).filter
        (fun x => x.display == e.display)).getLast? with
    | none => exact absurd (List.getLast?_eq_none_iff.mp hfe) hne
    | some w =>
      have hlk : lookupD ((completeEmits expand commands lwords).foldl pairsInsert [])
          e.display = some w := by
        rw [foldl_insert_lookup, hfe]
        rfl
      obtain ⟨hwm, hwd⟩ := mem_of_lookupD _ _ _ hlk
      refine ⟨w, ?_, hwd⟩
      rw [hkey]
      exact (List.mem_insertionSort pairLe).mpr hwm

/-- Claim C2, witness: the amended statement at one empty typed token and
the templates b, a, whose candidates come back deduplicated and sorted. -/
theorem claim2_witness :
    (∀ w ∈ [CommandPart.new []], w.is_error = false) ∧
    (((completeParts (fun cp _ => [cp.slice]) [['b'], ['a']]
        [CommandPart.new []]).map Pair.display).Nodup ∧
     List.Sorted pairLe (completeParts (fun cp _ => [cp.slice]) [['b'], ['a']]
        [CommandPart.new []]) ∧
     (∀ v ∈ completeParts (fun cp _ => [cp.slice]) [['b'], ['a']] [CommandPart.new []],
       ((completeEmits (fun cp _ => [cp.slice]) [['b'], ['a']] [CommandPart.new []]).filter
         (fun x => x.display == v.display)).getLast? = some v) ∧
     (∀ e ∈ completeEmits (fun cp _ => [cp.slice]) [['b'], ['a']] [CommandPart.new []],
       ∃ v ∈ completeParts (fun cp _ => [cp.slice]) [['b'], ['a']] [CommandPart.new []],
         v.display = e.display)) :=
  ⟨by decide, claim2_candidates (fun cp _ => [cp.slice]) [['b'], ['a']]
    [CommandPart.new []] (by decide)⟩

end Cmdui
